import Mathlib

/-!
Verification of the zootype `gophertype` typing engine.

The Go source is shallowly embedded: the `TypingState` record and its
transition functions (`handleKeystroke`, `handleSpace`, `handleBackspace`,
`skipToNextWord`, `markRangeIncorrect`, `extendTextForTimedMode`), the
display pipeline (`splitIntoWords`, `wrapTextToLines`,
`calculateVisibleWindow`), the statistics (`clamp`, `calculateAccuracy`,
`NewResults`) and the configuration (`loadConfig`, `getSessionText`).

Modelling conventions:
  - Go `string` values are ASCII here (as the engine assumes), embedded as
    `List Char`; `s[i]` with an in-bounds guard becomes `List.getD i`.
  - Go `int` is embedded as `Int` where the source may decrement a counter
    (`errors`, `charsTyped`) and as `Nat` for counters the source never
    decrements and for indices.
  - Go loops (`markRangeIncorrect`, the search loop of `skipToNextWord`,
    the token loop of `wrapTextToLines`) become structural recursions whose
    fuel is the loop's iteration count.
  - `float64` statistics are embedded over `ℚ`; the claims checked about
    them (clamping to `[0, 100]`, the zero-denominator case) are
    insensitive to rounding.
  - Wall-clock fields (`startTime`, `timeLimit`), the display mutex and
    terminal bookkeeping of the Go struct carry no typing semantics and are
    omitted from the record; randomness and the embedded word list are
    abstracted into explicit parameters (`words` for
    `extendTextForTimedMode`, the generator outcomes for `getSessionText`).
-/

namespace Zootype

/-- Embedding of the Go struct `TypingState` (session.go): target text,
cursor, per-character correctness/typed flags, corrected counters
(`errors`, `charsTyped`, decremented on backspace) and raw counters
(`rawErrors`, `rawKeystrokes`, never decremented). -/
structure TypingState where
  sessionText : List Char
  position : Nat
  errors : Int
  rawErrors : Nat
  charsTyped : Int
  rawKeystrokes : Nat
  charCorrectness : List Bool
  charTyped : List Bool
  backspaceCount : Nat
  deriving Repr, DecidableEq

/-- Embedding of `newTypingState` (session.go): fresh session on a target
text, all flags false, all counters zero. -/
def newTypingState (target : List Char) : TypingState :=
  { sessionText := target
    position := 0
    errors := 0
    rawErrors := 0
    charsTyped := 0
    rawKeystrokes := 0
    charCorrectness := List.replicate target.length false
    charTyped := List.replicate target.length false
    backspaceCount := 0 }

/-- Embedding of `handleBackspace` (session.go): move the cursor back,
decrement `charsTyped`, count the backspace, decrement `errors` only when
the slot was a typed error, then clear both flags of the slot. -/
def handleBackspace (state : TypingState) : TypingState :=
  if state.position = 0 then state
  else
    let p := state.position - 1
    let state :=
      { state with
        position := p
        charsTyped := state.charsTyped - 1
        backspaceCount := state.backspaceCount + 1 }
    let state :=
      if !(state.charCorrectness.getD p false) && state.charTyped.getD p false then
        { state with errors := state.errors - 1 }
      else state
    { state with
      charCorrectness := state.charCorrectness.set p false
      charTyped := state.charTyped.set p false }

/-- Embedding of `canSkipWord` (session.go): the cursor is mid-word when it
is not at the start and the previous character is not a space. -/
def canSkipWord (state : TypingState) : Bool :=
  if state.position = 0 then false
  else state.sessionText.getD (state.position - 1) ' ' != ' '

/-- Fuel-indexed embedding of the loop body of `markRangeIncorrect`
(session.go): starting at slot `j`, for `n` slots set the correctness flag
to false and increment `rawErrors` once per slot. -/
def markRangeAux (state : TypingState) (j : Nat) : Nat → TypingState
  | 0 => state
  | n + 1 =>
      markRangeAux
        { state with
          charCorrectness := state.charCorrectness.set j false
          rawErrors := state.rawErrors + 1 }
        (j + 1) n

/-- Embedding of `markRangeIncorrect` (session.go): the Go loop runs over
`j ∈ [start, endIdx)`, i.e. `endIdx - start` iterations from `start`. -/
def markRangeIncorrect (state : TypingState) (start endIdx : Nat) : TypingState :=
  markRangeAux state start (endIdx - start)

/-- Fuel-indexed embedding of the search loop of `skipToNextWord`
(session.go): from index `i`, with `n` indices left before the end of the
text, return the first index holding a space, if any. -/
def findSpaceAux (text : List Char) (i : Nat) : Nat → Option Nat
  | 0 => none
  | n + 1 => if text.getD i ' ' = ' ' then some i else findSpaceAux text (i + 1) n

/-- First space of `text` at an index `≥ i`, mirroring the `for` loop of
`skipToNextWord` which scans `i ∈ [position, len)`. -/
def findSpaceFrom (text : List Char) (i : Nat) : Option Nat :=
  findSpaceAux text i (text.length - i)

/-- Embedding of `skipToNextWord` (session.go): mark the rest of the
current word incorrect and jump one past the next space, or mark up to the
end of the text and jump there when no space follows. -/
def skipToNextWord (state : TypingState) : TypingState :=
  match findSpaceFrom state.sessionText state.position with
  | some i =>
      { markRangeIncorrect state state.position i with position := i + 1 }
  | none =>
      { markRangeIncorrect state state.position state.sessionText.length with
        position := state.sessionText.length }

/-- Embedding of `handleSpace` (session.go): advance over a correct space,
else skip to the next word when mid-word, else do nothing. -/
def handleSpace (state : TypingState) : TypingState :=
  if state.position < state.sessionText.length ∧
      state.sessionText.getD state.position ' ' = ' ' then
    { state with
      charCorrectness := state.charCorrectness.set state.position true
      charTyped := state.charTyped.set state.position true
      position := state.position + 1 }
  else
    if canSkipWord state then skipToNextWord state else state

/-- Embedding of `handleKeystroke` (session.go): always increment
`charsTyped` and `rawKeystrokes` first; a space goes to `handleSpace`; at
the end of the text nothing more happens; otherwise the slot is marked
typed and scored against the target character. -/
def handleKeystroke (state : TypingState) (key : Char) : TypingState :=
  let state :=
    { state with
      charsTyped := state.charsTyped + 1
      rawKeystrokes := state.rawKeystrokes + 1 }
  if key = ' ' then handleSpace state
  else if state.sessionText.length ≤ state.position then state
  else
    let state := { state with charTyped := state.charTyped.set state.position true }
    if key = state.sessionText.getD state.position ' ' then
      { state with
        charCorrectness := state.charCorrectness.set state.position true
        position := state.position + 1 }
    else
      { state with
        charCorrectness := state.charCorrectness.set state.position false
        errors := state.errors + 1
        rawErrors := state.rawErrors + 1
        position := state.position + 1 }

/-- Embedding of `strings.Join words " "` used by
`extendTextForTimedMode` (session.go). -/
def joinSpace : List (List Char) → List Char
  | [] => []
  | [w] => w
  | w :: ws => w ++ ' ' :: joinSpace ws

/-- Embedding of Go `dst := make([]bool, n); copy(dst, src)`: the first
`min n src.length` entries come from `src`, the rest are `false`. -/
def goCopy (src : List Bool) (n : Nat) : List Bool :=
  src.take n ++ List.replicate (n - src.length) false

/-- Embedding of `extendTextForTimedMode` (session.go). The freshly drawn
random words are abstracted into the `words` parameter; the Go function
appends `" " ++ strings.Join words " "` to the text and regrows both flag
arrays to `len(charCorrectness) + len(newText)` entries via `make`/`copy`. -/
def extendTextForTimedMode (state : TypingState) (words : List (List Char)) :
    TypingState :=
  let newText : List Char := ' ' :: joinSpace words
  let newLen := state.charCorrectness.length + newText.length
  { state with
    sessionText := state.sessionText ++ newText
    charCorrectness := goCopy state.charCorrectness newLen
    charTyped := goCopy state.charTyped newLen }

/-- Event alphabet of the session loop `runTypingSession` (session.go):
a keyboard byte (embedded as its `Char`), the 1 Hz tick, the deadline, and
the interrupt. -/
inductive Event where
  | byte : Char → Event
  | tick : Event
  | timeUp : Event
  | interrupt : Event
  deriving Repr, DecidableEq

/-- One dispatch step of the session loop `runTypingSession` (session.go):
Ctrl-C (byte 3) ends the session without touching the state, ESC (27) only
drains the escape sequence, bytes 8 and 127 are backspace, every other byte
goes to `handleKeystroke`; ticks, the deadline and the interrupt leave the
typing state unchanged. -/
def step (state : TypingState) (e : Event) : TypingState :=
  match e with
  | .byte b =>
      if b = Char.ofNat 3 then state
      else if b = Char.ofNat 27 then state
      else if b = Char.ofNat 127 ∨ b = Char.ofNat 8 then handleBackspace state
      else handleKeystroke state b
  | .tick => state
  | .timeUp => state
  | .interrupt => state

/-- A full run of the session loop over a list of events from a fresh
state. -/
def runEvents (target : List Char) (events : List Event) : TypingState :=
  events.foldl step (newTypingState target)

/-- Embedding of the struct `wrappedLine` (display.go): one display line,
its map back to source indices, and the cursor flag. -/
structure wrappedLine where
  content : List Char
  charIndices : List Nat
  hasCursor : Bool
  cursorPosition : Nat
  deriving Repr, DecidableEq

/-- The zero value `wrappedLine{}` used by the Go wrap loop. -/
def emptyLine : wrappedLine :=
  { content := [], charIndices := [], hasCursor := false, cursorPosition := 0 }

/-- Accumulator embedding of `splitIntoWords` (display.go): `cur` is the
non-space run collected so far; a space flushes it and becomes its own
token; the final run is flushed at the end. -/
def splitWordsAux (cur : List Char) : List Char → List (List Char)
  | [] => if cur = [] then [] else [cur]
  | c :: rest =>
      if c = ' ' then
        if cur = [] then [' '] :: splitWordsAux [] rest
        else cur :: [' '] :: splitWordsAux [] rest
      else splitWordsAux (cur ++ [c]) rest

/-- Embedding of `splitIntoWords` (display.go): maximal non-space runs and
single spaces, each as its own token. -/
def splitIntoWords (text : List Char) : List (List Char) :=
  splitWordsAux [] text

/-- Embedding of the inner character loop of `wrapTextToLines`
(display.go): append the characters of `word` to `line`, recording each
running source index, and grab the cursor when the index matches. Returns
the grown line and the advanced source index. -/
def addWordChars (line : wrappedLine) (word : List Char) (cursorPos textIndex : Nat) :
    wrappedLine × Nat :=
  match word with
  | [] => (line, textIndex)
  | c :: cs =>
      let line :=
        if textIndex = cursorPos then
          { line with hasCursor := true, cursorPosition := line.content.length }
        else line
      addWordChars
        { line with
          content := line.content ++ [c]
          charIndices := line.charIndices ++ [textIndex] }
        cs cursorPos (textIndex + 1)

/-- Embedding of the token loop of `wrapTextToLines` (display.go): a token
that would overflow the line starts a new one, and a lone space token at
such a boundary is absorbed (its source index is consumed but emitted
nowhere). Returns the finished lines, the line under construction, and the
advanced source index. -/
def wrapLoop (cursorPos lineWidth : Nat) :
    List (List Char) → wrappedLine → Nat → List wrappedLine × wrappedLine × Nat
  | [], currentLine, textIndex => ([], currentLine, textIndex)
  | word :: rest, currentLine, textIndex =>
      if 0 < currentLine.content.length ∧
          lineWidth < currentLine.content.length + word.length then
        if word = [' '] then
          let r := wrapLoop cursorPos lineWidth rest emptyLine (textIndex + word.length)
          (currentLine :: r.1, r.2)
        else
          let p := addWordChars emptyLine word cursorPos textIndex
          let r := wrapLoop cursorPos lineWidth rest p.1 p.2
          (currentLine :: r.1, r.2)
      else
        let p := addWordChars currentLine word cursorPos textIndex
        wrapLoop cursorPos lineWidth rest p.1 p.2

/-- Embedding of `wrapTextToLines` (display.go): split into tokens, fill
lines greedily, attach the cursor to the final line when it is at or past
the end of the text, and keep the final line when it has content or the
cursor. -/
def wrapTextToLines (text : List Char) (cursorPos lineWidth : Nat) : List wrappedLine :=
  let r := wrapLoop cursorPos lineWidth (splitIntoWords text) emptyLine 0
  let currentLine := r.2.1
  let currentLine :=
    if text.length ≤ cursorPos then
      { currentLine with hasCursor := true, cursorPosition := currentLine.content.length }
    else currentLine
  if 0 < currentLine.content.length ∨ currentLine.hasCursor then
    r.1 ++ [currentLine]
  else r.1

/-- The source indices emitted across all wrapped lines, in display
order. -/
def allIndices (lines : List wrappedLine) : List Nat :=
  (lines.map wrappedLine.charIndices).flatten

/-- Accumulator embedding of the cursor-line search in
`calculateVisibleWindow` (display.go): index of the first line carrying the
cursor, or 0 when none does. -/
def findCursorLineAux : List wrappedLine → Nat → Nat
  | [], _ => 0
  | l :: ls, i => if l.hasCursor then i else findCursorLineAux ls (i + 1)

/-- The `cursorLine` computed by `calculateVisibleWindow` (display.go). -/
def findCursorLine (lines : List wrappedLine) : Nat :=
  findCursorLineAux lines 0

/-- Embedding of `calculateVisibleWindow` (display.go), kept over `Int`
exactly as the Go arithmetic: try one line of context above the cursor,
then clip the window to the line list. -/
def calculateVisibleWindow (lines : List wrappedLine) (maxLines : Nat) : Int × Int :=
  let cursorLine : Int := (findCursorLine lines : Nat)
  let start := cursorLine - 1
  let start := if start < 0 then 0 else start
  let endIdx := start + (maxLines : Int)
  if (lines.length : Int) < endIdx then
    let endIdx : Int := (lines.length : Int)
    let start := endIdx - (maxLines : Int)
    let start := if start < 0 then 0 else start
    (start, endIdx)
  else (start, endIdx)

/-- Embedding of `clamp` (results file): restrict `value` to
`[lo, hi]`. The Go `float64` arithmetic is modelled over `ℚ`. -/
def clamp (value lo hi : ℚ) : ℚ :=
  if value < lo then lo else if hi < value then hi else value

/-- Embedding of `calculateAccuracy` (results file):
`(typed - errors) / typed × 100` clamped to `[0, 100]`, and `0` when
`typed = 0`. -/
def calculateAccuracy (typed errors : Int) : ℚ :=
  if typed = 0 then 0
  else clamp (((typed : ℚ) - (errors : ℚ)) / (typed : ℚ) * 100) 0 100

/-- Embedding of `countCorrectChars` (results file): correctness flags set
among the first `position` slots. -/
def countCorrectChars (state : TypingState) : Nat :=
  (List.range state.position).countP
    (fun i => state.charCorrectness.getD i false)

/-- Embedding of the struct `Results` (results file), restricted to the
time-free fields; `Duration` and `WPM` depend on the wall clock and are
outside the typing semantics. -/
structure Results where
  Accuracy : ℚ
  RawAccuracy : ℚ
  CorrectChars : Nat
  BackspaceCount : Nat
  Errors : Int
  RawErrors : Nat
  deriving Repr, DecidableEq

/-- Embedding of `NewResults` (results file): statistics over a frozen
snapshot of the typing state. -/
def NewResults (state : TypingState) : Results :=
  { Accuracy := calculateAccuracy state.charsTyped state.errors
    RawAccuracy := calculateAccuracy (state.rawKeystrokes : Int) (state.rawErrors : Int)
    CorrectChars := countCorrectChars state
    BackspaceCount := state.backspaceCount
    Errors := state.errors
    RawErrors := state.rawErrors }

/-- Embedding of the struct `Config` (config.go); Go's `TextSource` is a
string type. -/
structure Config where
  TextSource : String
  WordCount : Int
  TimeSeconds : Int
  deriving Repr, DecidableEq

/-- Embedding of `loadConfig` (config.go) after `flag.Parse()`: the three
parameters are the parsed flag values (`0` and `""` are the flag
defaults, i.e. the flag was not given). Defaults are words / 50 words /
timed 30 s; a positive `-t` selects timed mode, else a positive `-w`
selects word-count mode. The function has no error path. -/
def loadConfig (timeSeconds wordCount : Int) (textSource : String) : Config :=
  let config : Config :=
    { TextSource := "words", WordCount := 50, TimeSeconds := 30 }
  let config :=
    if textSource ≠ "" then { config with TextSource := textSource } else config
  if 0 < timeSeconds then { config with TimeSeconds := timeSeconds }
  else if 0 < wordCount then { config with WordCount := wordCount, TimeSeconds := 0 }
  else config

/-- Embedding of `getSessionText` (config.go). The four random generator
outcomes (`generateWordText`, `generateInitialWordText`, the sentence pick,
`generateInitialSentenceText`) are abstracted into parameters; the switch
and its error path are the source's. -/
def getSessionText (config : Config)
    (wordText initialWordText : Except String String)
    (sentencePick initialSentenceText : String) : Except String String :=
  if config.TextSource = "sentences" then
    if 0 < config.TimeSeconds then .ok initialSentenceText
    else .ok sentencePick
  else if config.TextSource = "words" then
    if 0 < config.TimeSeconds then initialWordText
    else wordText
  else .error ("unknown text source: " ++ config.TextSource)

/-- Structural invariant of the data model (spec section 3): both flag
arrays track the text length and the cursor stays inside the text. -/
def structOK (s : TypingState) : Prop :=
  s.charCorrectness.length = s.sessionText.length ∧
  s.charTyped.length = s.sessionText.length ∧
  s.position ≤ s.sessionText.length

/-- Number of typed-error slots (typed flag set, correctness flag clear)
among the first `n` slots; the predicate is oriented exactly as the
backspace test in `handleBackspace`. -/
def countTypedErr (typed corr : List Bool) (n : Nat) : Nat :=
  (List.range n).countP (fun i => !(corr.getD i false) && typed.getD i false)

/-- Inductive invariant of the session loop: the structural invariant,
`errors` agreeing with the count of typed-error slots behind the cursor,
untyped slots from the cursor on, and `charsTyped` bounded by
`rawKeystrokes`. -/
def counterInv (s : TypingState) : Prop :=
  structOK s ∧
  s.errors = (countTypedErr s.charTyped s.charCorrectness s.position : Int) ∧
  (∀ j, s.position ≤ j → s.charTyped.getD j false = false) ∧
  s.charsTyped ≤ (s.rawKeystrokes : Int)

/-- The run of source indices `ti, ti+1, …, ti+n-1` that the wrap loop
emits for one token of length `n`. -/
def idxRun (ti : Nat) : Nat → List Nat
  | 0 => []
  | n + 1 => ti :: idxRun (ti + 1) n

/-- Cursor indicator of one wrapped line: 1 when the line carries the
cursor. -/
def cInd (l : wrappedLine) : Nat :=
  if l.hasCursor = true then 1 else 0

/-- Indicator of `x ∈ [lo, hi)`. -/
def indIn (lo x hi : Nat) : Nat :=
  if lo ≤ x ∧ x < hi then 1 else 0

/-- Inductive invariant of the wrap loop, relating the produced lines and
the line under construction to the token stream still to be consumed:
`ti` is the running source index, `S` the total length of the remaining
tokens, `chars` their concatenation, `cur` the incoming line under
construction. It packages: the final source index; that the incoming
indices survive into the output; strict monotonicity of all emitted
indices; their bounds; completeness for non-space characters; that any
line carrying the cursor contains the cursor index; the cursor count
bound; and the content/index length agreement of the line under
construction. -/
def wrapInv (cpos ti S : Nat) (cur : wrappedLine) (chars : List Char)
    (out : List wrappedLine × wrappedLine × Nat) : Prop :=
  out.2.2 = ti + S ∧
  (∀ x ∈ cur.charIndices, x ∈ allIndices out.1 ++ out.2.1.charIndices) ∧
  List.Pairwise (· < ·) (allIndices out.1 ++ out.2.1.charIndices) ∧
  (∀ x ∈ allIndices out.1 ++ out.2.1.charIndices,
    x < ti + S ∧ (x ∈ cur.charIndices ∨ ti ≤ x)) ∧
  (∀ k, k < S → chars.getD k ' ' ≠ ' ' →
    ti + k ∈ allIndices out.1 ++ out.2.1.charIndices) ∧
  (∀ l ∈ out.1, l.hasCursor = true → cpos ∈ l.charIndices) ∧
  (out.2.1.hasCursor = true → cpos ∈ out.2.1.charIndices) ∧
  List.countP (fun l => l.hasCursor) out.1 + cInd out.2.1
    ≤ cInd cur + indIn ti cpos (ti + S) ∧
  out.2.1.content.length = out.2.1.charIndices.length

/-- Sample snapshot for concrete instantiations: the one-character text
`"a"` fully and correctly typed, cursor at the end. -/
def endState : TypingState :=
  { sessionText := ['a']
    position := 1
    errors := 0
    rawErrors := 0
    charsTyped := 1
    rawKeystrokes := 1
    charCorrectness := [true]
    charTyped := [true]
    backspaceCount := 0 }

/-- Sample snapshot for concrete instantiations: the text `"ab"` with the
first character correctly typed, cursor mid-text. -/
def midState : TypingState :=
  { sessionText := ['a', 'b']
    position := 1
    errors := 0
    rawErrors := 0
    charsTyped := 1
    rawKeystrokes := 1
    charCorrectness := [true, false]
    charTyped := [true, false]
    backspaceCount := 0 }

/-- Sample snapshot for concrete instantiations: the text `"ab cd"` with
the first character correctly typed, cursor mid-word. -/
def midWordState : TypingState :=
  { sessionText := ['a', 'b', ' ', 'c', 'd']
    position := 1
    errors := 0
    rawErrors := 0
    charsTyped := 1
    rawKeystrokes := 1
    charCorrectness := [true, false, false, false, false]
    charTyped := [true, false, false, false, false]
    backspaceCount := 0 }

/-!  Helper lemmas about list access, shared by the claim proofs. -/

theorem getD_set_self {α : Type} (l : List α) (i : Nat) (v d : α)
    (h : i < l.length) : (l.set i v).getD i d = v := by
  simp [List.getD_eq_getElem?_getD, List.getElem?_set_self h]

theorem getD_set_ne {α : Type} (l : List α) {i j : Nat} (v d : α)
    (h : i ≠ j) : (l.set i v).getD j d = l.getD j d := by
  simp [List.getD_eq_getElem?_getD, List.getElem?_set_ne h]

theorem getD_of_len_le {α : Type} (l : List α) {j : Nat} (d : α)
    (h : l.length ≤ j) : l.getD j d = d := by
  simp [List.getD_eq_getElem?_getD, List.getElem?_eq_none h]

theorem getD_set_false (l : List Bool) (i j : Nat)
    (h : i = j) : (l.set i false).getD j false = false := by
  subst h
  rcases Nat.lt_or_ge i l.length with hi | hi
  · exact getD_set_self l i false false hi
  · exact getD_of_len_le _ _ (by simpa using hi)

theorem getD_replicate_false (n j : Nat) :
    (List.replicate n false).getD j false = false := by
  rcases Nat.lt_or_ge j n with h | h
  · simp [List.getD_eq_getElem?_getD, List.getElem?_replicate, h]
  · exact getD_of_len_le _ _ (by simpa using h)

theorem getD_append_left {α : Type} (l l' : List α) {j : Nat} (d : α)
    (h : j < l.length) : (l ++ l').getD j d = l.getD j d := by
  simp [List.getD_eq_getElem?_getD, List.getElem?_append, h]

/-!  Bounds of the clamped accuracy computation. -/

theorem clamp_le_hi (v lo hi : ℚ) (h : lo ≤ hi) : clamp v lo hi ≤ hi := by
  unfold clamp
  split
  · exact h
  · split
    · exact le_refl hi
    · linarith

theorem lo_le_clamp (v lo hi : ℚ) (h : lo ≤ hi) : lo ≤ clamp v lo hi := by
  unfold clamp
  split
  · exact le_refl lo
  · split
    · exact h
    · linarith

theorem calculateAccuracy_nonneg (typed errors : Int) :
    0 ≤ calculateAccuracy typed errors := by
  unfold calculateAccuracy
  split
  · exact le_refl 0
  · exact lo_le_clamp _ 0 100 (by norm_num)

theorem calculateAccuracy_le_100 (typed errors : Int) :
    calculateAccuracy typed errors ≤ 100 := by
  unfold calculateAccuracy
  split
  · norm_num
  · exact clamp_le_hi _ 0 100 (by norm_num)

/-- Claim C7: `NewResults` computes the corrected accuracy as
`clamp((chars_typed - errors) / chars_typed × 100, 0, 100)` with `0` at a
zero denominator, the raw accuracy by the same formula over the raw
counters, and both reported accuracies lie in `[0, 100]` for every
snapshot. -/
theorem results_accuracy_spec (s : TypingState) :
    (NewResults s).Accuracy
        = (if s.charsTyped = 0 then (0 : ℚ)
           else clamp (((s.charsTyped : ℚ) - (s.errors : ℚ)) / (s.charsTyped : ℚ) * 100) 0 100) ∧
    (NewResults s).RawAccuracy
        = (if (s.rawKeystrokes : Int) = 0 then (0 : ℚ)
           else clamp ((((s.rawKeystrokes : Int) : ℚ) - ((s.rawErrors : Int) : ℚ))
                        / ((s.rawKeystrokes : Int) : ℚ) * 100) 0 100) ∧
    0 ≤ (NewResults s).Accuracy ∧ (NewResults s).Accuracy ≤ 100 ∧
    0 ≤ (NewResults s).RawAccuracy ∧ (NewResults s).RawAccuracy ≤ 100 :=
  ⟨rfl, rfl,
    calculateAccuracy_nonneg _ _, calculateAccuracy_le_100 _ _,
    calculateAccuracy_nonneg _ _, calculateAccuracy_le_100 _ _⟩

/-- Claim C6: for a non-empty line list the visible window is
`start = max(0, c - 1)` re-seated so that `end = min(len, start + 3)` and
`start = max(0, end - 3)`, and it always spans exactly `min(3, len)`
lines. -/
theorem visible_window_spec (lines : List wrappedLine) (h : lines ≠ []) :
    calculateVisibleWindow lines 3
        = (max 0 (min (lines.length : Int) (max 0 ((findCursorLine lines : Int) - 1) + 3) - 3),
           min (lines.length : Int) (max 0 ((findCursorLine lines : Int) - 1) + 3)) ∧
    (calculateVisibleWindow lines 3).2 - (calculateVisibleWindow lines 3).1
        = min 3 (lines.length : Int) := by
  have hlen : (0 : Int) ≤ (lines.length : Int) := Int.ofNat_nonneg _
  unfold calculateVisibleWindow
  dsimp only
  split_ifs with h1 h2 h3 <;> simp_all <;> omega

/-- Witness for C6 at a concrete one-line list. -/
theorem visible_window_spec_witness :
    calculateVisibleWindow [emptyLine] 3 = (0, 1) := by
  have h := (visible_window_spec [emptyLine] (by simp)).1
  rw [h]
  decide

/-- Counterexample for C8: `-w 0` (parsed flag values
`timeSeconds = 0`, `wordCount = 0`, `textSource = ""`) is not rejected:
`loadConfig` has no error path and yields the default timed 30-second
configuration, exactly as if no flag had been given. -/
theorem config_cex :
    loadConfig 0 0 "" = { TextSource := "words", WordCount := 50, TimeSeconds := 30 } := by
  decide

/-- Claim C8 (amended): `loadConfig` rejects nothing — any non-positive
word count falls back to the defaults — while an unknown text source is
accepted at flag-parse time and only rejected (with the error that `run`
turns into exit code 1) when `getSessionText` materializes the text,
before any session starts. -/
theorem config_validation_spec :
    (∀ timeSeconds wordCount : Int, timeSeconds ≤ 0 → wordCount ≤ 0 →
      loadConfig timeSeconds wordCount ""
        = { TextSource := "words", WordCount := 50, TimeSeconds := 30 }) ∧
    (∀ (config : Config) (wt iwt : Except String String) (sp ist : String),
      config.TextSource ≠ "sentences" → config.TextSource ≠ "words" →
      getSessionText config wt iwt sp ist
        = .error ("unknown text source: " ++ config.TextSource)) := by
  constructor
  · intro timeSeconds wordCount ht hw
    unfold loadConfig
    simp [Int.not_lt.2 ht, Int.not_lt.2 hw]
  · intro config wt iwt sp ist hs hw
    unfold getSessionText
    simp [hs, hw]

/-- Witness for C8 at concrete flag values and a concrete config. -/
theorem config_validation_spec_witness :
    loadConfig 0 0 "" = { TextSource := "words", WordCount := 50, TimeSeconds := 30 } ∧
    getSessionText { TextSource := "bogus", WordCount := 50, TimeSeconds := 30 }
        (.ok "w") (.ok "iw") "s" "is" = .error "unknown text source: bogus" := by
  constructor
  · exact config_validation_spec.1 0 0 (by decide) (by decide)
  · exact config_validation_spec.2 _ _ _ _ _ (by decide) (by decide)

/-- Counterexample for C3: with the cursor at the end of the text a
printable non-space byte is not a complete no-op — `charsTyped` and
`rawKeystrokes` still increase by one. -/
theorem keystroke_at_end_cex :
    (handleKeystroke endState 'b').charsTyped = 2 ∧ endState.charsTyped = 1 ∧
    (handleKeystroke endState 'b').rawKeystrokes = 2 ∧ endState.rawKeystrokes = 1 := by
  decide

/-- Claim C3 (amended): with the cursor at the end of the text a printable
non-space byte leaves position, both flag arrays, `errors` and `rawErrors`
unchanged, but still increments `charsTyped` and `rawKeystrokes` by
one. -/
theorem keystroke_at_end (s : TypingState) (key : Char) (hk : key ≠ ' ')
    (h : s.sessionText.length ≤ s.position) :
    handleKeystroke s key
      = { s with charsTyped := s.charsTyped + 1, rawKeystrokes := s.rawKeystrokes + 1 } := by
  unfold handleKeystroke
  simp [hk, h]

/-- Witness for C3 at the concrete end-of-text snapshot. -/
theorem keystroke_at_end_witness :
    handleKeystroke endState 'b' = { endState with charsTyped := 2, rawKeystrokes := 2 } := by
  rw [keystroke_at_end endState 'b' (by decide) (by decide)]
  decide

/-!  Characterization of the `markRangeIncorrect` loop. -/

theorem markRangeAux_spec (n : Nat) : ∀ (s : TypingState) (j : Nat),
    (markRangeAux s j n).sessionText = s.sessionText ∧
    (markRangeAux s j n).position = s.position ∧
    (markRangeAux s j n).errors = s.errors ∧
    (markRangeAux s j n).charsTyped = s.charsTyped ∧
    (markRangeAux s j n).rawKeystrokes = s.rawKeystrokes ∧
    (markRangeAux s j n).backspaceCount = s.backspaceCount ∧
    (markRangeAux s j n).charTyped = s.charTyped ∧
    (markRangeAux s j n).rawErrors = s.rawErrors + n ∧
    (markRangeAux s j n).charCorrectness.length = s.charCorrectness.length ∧
    (∀ k, k < j →
      (markRangeAux s j n).charCorrectness.getD k false
        = s.charCorrectness.getD k false) ∧
    (∀ k, j ≤ k → k < j + n →
      (markRangeAux s j n).charCorrectness.getD k false = false) := by
  induction n with
  | zero =>
      intro s j
      refine ⟨rfl, rfl, rfl, rfl, rfl, rfl, rfl, rfl, rfl, fun k _ => rfl, ?_⟩
      intro k h1 h2
      omega
  | succ n ih =>
      intro s j
      obtain ⟨h1, h2, h3, h4, h5, h6, h7, h8, h9, h10, h11⟩ :=
        ih { s with charCorrectness := s.charCorrectness.set j false
                    rawErrors := s.rawErrors + 1 } (j + 1)
      rw [markRangeAux] at *
      refine ⟨h1, h2, h3, h4, h5, h6, h7, by rw [h8]; dsimp only; omega,
              by simpa using h9, ?_, ?_⟩
      · intro k hk
        rw [h10 k (by omega)]
        exact getD_set_ne _ _ _ (by omega)
      · intro k hk1 hk2
        rcases Nat.eq_or_lt_of_le hk1 with he | hl
        · rw [h10 k (by omega)]
          exact getD_set_false _ _ _ he
        · exact h11 k (by omega) (by omega)

/-!  Characterization of the space-search loop of `skipToNextWord`. -/

theorem findSpaceAux_some (text : List Char) :
    ∀ (n i k : Nat), findSpaceAux text i n = some k →
      i ≤ k ∧ k < i + n ∧ text.getD k ' ' = ' ' ∧
      ∀ j, i ≤ j → j < k → text.getD j ' ' ≠ ' ' := by
  intro n
  induction n with
  | zero => intro i k h; simp [findSpaceAux] at h
  | succ n ih =>
      intro i k h
      rw [findSpaceAux] at h
      by_cases hs : text.getD i ' ' = ' '
      · rw [if_pos hs] at h
        obtain rfl : i = k := by simpa using h
        exact ⟨le_refl i, by omega, hs, fun j h1 h2 => by omega⟩
      · rw [if_neg hs] at h
        obtain ⟨g1, g2, g3, g4⟩ := ih (i + 1) k h
        refine ⟨by omega, by omega, g3, ?_⟩
        intro j h1 h2
        rcases Nat.eq_or_lt_of_le h1 with he | hl
        · rw [← he]; exact hs
        · exact g4 j (by omega) h2

theorem findSpaceAux_none (text : List Char) :
    ∀ (n i : Nat), findSpaceAux text i n = none →
      ∀ j, i ≤ j → j < i + n → text.getD j ' ' ≠ ' ' := by
  intro n
  induction n with
  | zero => intro i _ j h1 h2; omega
  | succ n ih =>
      intro i h j h1 h2
      rw [findSpaceAux] at h
      by_cases hs : text.getD i ' ' = ' '
      · rw [if_pos hs] at h; exact absurd h (by simp)
      · rw [if_neg hs] at h
        rcases Nat.eq_or_lt_of_le h1 with he | hl
        · rw [← he]; exact hs
        · exact ih (i + 1) h j (by omega) (by omega)

theorem findSpaceFrom_some (text : List Char) (i k : Nat)
    (h : findSpaceFrom text i = some k) :
    i ≤ k ∧ k < text.length ∧ text.getD k ' ' = ' ' ∧
    ∀ j, i ≤ j → j < k → text.getD j ' ' ≠ ' ' := by
  obtain ⟨g1, g2, g3, g4⟩ := findSpaceAux_some text _ i k h
  exact ⟨g1, by omega, g3, g4⟩

theorem findSpaceFrom_none (text : List Char) (i : Nat)
    (h : findSpaceFrom text i = none) :
    ∀ j, i ≤ j → j < text.length → text.getD j ' ' ≠ ' ' := by
  intro j h1 h2
  exact findSpaceAux_none text _ i h j h1 (by omega)

/-- Claim C2: pressing space mid-word (cursor past the start, previous
character not a space, current character not a space) first increments
`charsTyped` and `rawKeystrokes` by one, then marks every slot up to the
next space incorrect without touching its typed flag or `errors`,
incrementing `rawErrors` once per slot, and moves the cursor one past the
next space, or to the end of the text when no space follows. The
`htyped` hypothesis is the reachable-state invariant that slots at or
after the cursor are untyped. -/
theorem space_skip_spec (s : TypingState)
    (hpos0 : 0 < s.position)
    (hplen : s.position < s.sessionText.length)
    (hprev : s.sessionText.getD (s.position - 1) ' ' ≠ ' ')
    (hcur : s.sessionText.getD s.position ' ' ≠ ' ')
    (htyped : ∀ j, s.position ≤ j → s.charTyped.getD j false = false) :
    (handleKeystroke s ' ').charsTyped = s.charsTyped + 1 ∧
    (handleKeystroke s ' ').rawKeystrokes = s.rawKeystrokes + 1 ∧
    (handleKeystroke s ' ').errors = s.errors ∧
    (handleKeystroke s ' ').charTyped = s.charTyped ∧
    ((∃ i, s.position ≤ i ∧ i < s.sessionText.length ∧
        s.sessionText.getD i ' ' = ' ' ∧
        (∀ j, s.position ≤ j → j < i → s.sessionText.getD j ' ' ≠ ' ') ∧
        (handleKeystroke s ' ').position = i + 1 ∧
        (handleKeystroke s ' ').rawErrors = s.rawErrors + (i - s.position) ∧
        (∀ j, s.position ≤ j → j < i →
          (handleKeystroke s ' ').charCorrectness.getD j false = false ∧
          (handleKeystroke s ' ').charTyped.getD j false = false)) ∨
      ((∀ j, s.position ≤ j → j < s.sessionText.length →
          s.sessionText.getD j ' ' ≠ ' ') ∧
        (handleKeystroke s ' ').position = s.sessionText.length ∧
        (handleKeystroke s ' ').rawErrors
          = s.rawErrors + (s.sessionText.length - s.position) ∧
        (∀ j, s.position ≤ j → j < s.sessionText.length →
          (handleKeystroke s ' ').charCorrectness.getD j false = false ∧
          (handleKeystroke s ' ').charTyped.getD j false = false))) := by
  have hhk : handleKeystroke s ' '
      = skipToNextWord
          { s with charsTyped := s.charsTyped + 1, rawKeystrokes := s.rawKeystrokes + 1 } := by
    have hcur' : ¬s.sessionText[s.position]?.getD ' ' = ' ' := by
      simpa [List.getD_eq_getElem?_getD] using hcur
    have hprev' : ¬s.sessionText[s.position - 1]?.getD ' ' = ' ' := by
      simpa [List.getD_eq_getElem?_getD] using hprev
    unfold handleKeystroke handleSpace canSkipWord
    simp [hcur', hprev', Nat.pos_iff_ne_zero.1 hpos0, bne_iff_ne]
  rw [hhk]
  unfold skipToNextWord
  dsimp only
  cases hfind : findSpaceFrom s.sessionText s.position with
  | some i =>
      obtain ⟨g1, g2, g3, g4⟩ := findSpaceFrom_some _ _ _ hfind
      simp only [hfind]
      obtain ⟨m1, m2, m3, m4, m5, m6, m7, m8, m9, m10, m11⟩ :=
        markRangeAux_spec (i - s.position)
          { s with charsTyped := s.charsTyped + 1, rawKeystrokes := s.rawKeystrokes + 1 }
          s.position
      unfold markRangeIncorrect
      refine ⟨by simp [m4], by simp [m5], by simp [m3], by simp [m7],
        Or.inl ⟨i, g1, g2, g3, g4, by simp, by simp [m8], ?_⟩⟩
      intro j hj1 hj2
      refine ⟨by simpa using m11 j hj1 (by omega), ?_⟩
      have : (markRangeAux
          { s with charsTyped := s.charsTyped + 1, rawKeystrokes := s.rawKeystrokes + 1 }
          s.position (i - s.position)).charTyped = s.charTyped := by simpa using m7
      have ht' : s.charTyped[j]?.getD false = false := by
        simpa [List.getD_eq_getElem?_getD] using htyped j hj1
      simp [this, ht']
  | none =>
      have g4 := findSpaceFrom_none _ _ hfind
      simp only [hfind]
      obtain ⟨m1, m2, m3, m4, m5, m6, m7, m8, m9, m10, m11⟩ :=
        markRangeAux_spec (s.sessionText.length - s.position)
          { s with charsTyped := s.charsTyped + 1, rawKeystrokes := s.rawKeystrokes + 1 }
          s.position
      unfold markRangeIncorrect
      refine ⟨by simp [m4], by simp [m5], by simp [m3], by simp [m7],
        Or.inr ⟨g4, by simp, by simp [m8], ?_⟩⟩
      intro j hj1 hj2
      refine ⟨by simpa using m11 j hj1 (by omega), ?_⟩
      have : (markRangeAux
          { s with charsTyped := s.charsTyped + 1, rawKeystrokes := s.rawKeystrokes + 1 }
          s.position (s.sessionText.length - s.position)).charTyped = s.charTyped := by
        simpa using m7
      have ht' : s.charTyped[j]?.getD false = false := by
        simpa [List.getD_eq_getElem?_getD] using htyped j hj1
      simp [this, ht']

/-- Witness for C2 at the concrete mid-word snapshot of `"ab cd"` with the
cursor on `b`: space counts one keystroke, leaves `errors` and the typed
flags alone. -/
theorem space_skip_spec_witness :
    (handleKeystroke midWordState ' ').charsTyped = 2 ∧
    (handleKeystroke midWordState ' ').rawKeystrokes = 2 ∧
    (handleKeystroke midWordState ' ').errors = 0 ∧
    (handleKeystroke midWordState ' ').charTyped = midWordState.charTyped := by
  obtain ⟨h1, h2, h3, h4, _⟩ :=
    space_skip_spec midWordState (by decide) (by decide) (by decide) (by decide)
      (by intro j hj
          rcases j with _ | j
          · exact absurd hj (by decide)
          · exact getD_replicate_false 4 j)
  exact ⟨by rw [h1]; decide, by rw [h2]; decide, by rw [h3]; decide, h4⟩

/-!  Preservation of the structural invariant by each transition. -/

theorem skipToNextWord_structOK (s : TypingState) (h : structOK s) :
    structOK (skipToNextWord s) := by
  obtain ⟨hc, ht, hp⟩ := h
  unfold skipToNextWord
  cases hfind : findSpaceFrom s.sessionText s.position with
  | some i =>
      obtain ⟨g1, g2, _, _⟩ := findSpaceFrom_some _ _ _ hfind
      obtain ⟨m1, _, _, _, _, _, m7, _, m9, _, _⟩ :=
        markRangeAux_spec (i - s.position) s s.position
      unfold markRangeIncorrect
      exact ⟨by simp [m1, m9, hc], by simp [m1, m7, ht], by simp [m1]; omega⟩
  | none =>
      obtain ⟨m1, _, _, _, _, _, m7, _, m9, _, _⟩ :=
        markRangeAux_spec (s.sessionText.length - s.position) s s.position
      unfold markRangeIncorrect
      exact ⟨by simp [m1, m9, hc], by simp [m1, m7, ht], by simp [m1]⟩

theorem handleSpace_structOK (s : TypingState) (h : structOK s) :
    structOK (handleSpace s) := by
  obtain ⟨hc, ht, hp⟩ := h
  unfold handleSpace
  split_ifs with h1 h2
  · obtain ⟨hlt, _⟩ := h1
    exact ⟨by simp [hc], by simp [ht], by dsimp only; omega⟩
  · exact skipToNextWord_structOK s ⟨hc, ht, hp⟩
  · exact ⟨hc, ht, hp⟩

theorem handleKeystroke_structOK (s : TypingState) (key : Char)
    (h : structOK s) : structOK (handleKeystroke s key) := by
  obtain ⟨hc, ht, hp⟩ := h
  unfold handleKeystroke
  dsimp only
  split_ifs with h1 h2 h3
  · exact handleSpace_structOK _ ⟨hc, ht, hp⟩
  · exact ⟨hc, ht, hp⟩
  · exact ⟨by simp [hc], by simp [ht], by dsimp only; omega⟩
  · exact ⟨by simp [hc], by simp [ht], by dsimp only; omega⟩

theorem handleBackspace_structOK (s : TypingState) (h : structOK s) :
    structOK (handleBackspace s) := by
  obtain ⟨hc, ht, hp⟩ := h
  unfold handleBackspace
  dsimp only
  split_ifs with h1 h2
  · exact ⟨hc, ht, hp⟩
  · exact ⟨by simp [hc], by simp [ht], by dsimp only; omega⟩
  · exact ⟨by simp [hc], by simp [ht], by dsimp only; omega⟩

theorem goCopy_of_le (src : List Bool) (k : Nat) :
    goCopy src (src.length + k) = src ++ List.replicate k false := by
  unfold goCopy
  rw [List.take_of_length_le (Nat.le_add_right _ _)]
  congr 1
  congr 1
  omega

/-- Claim C9: every transition — printable byte, space (advancing or
skipping), backspace, and timed-mode text extension — preserves
`len(correctness) = len(typed) = len(session_text)` and
`0 ≤ position ≤ len(session_text)`; the extension moreover appends to the
text, keeps every existing flag entry bit-for-bit and initializes every
new entry to false. -/
theorem structural_invariants :
    (∀ (s : TypingState) (key : Char), structOK s → structOK (handleKeystroke s key)) ∧
    (∀ s : TypingState, structOK s → structOK (handleBackspace s)) ∧
    (∀ (s : TypingState) (ws : List (List Char)), structOK s →
      structOK (extendTextForTimedMode s ws) ∧
      (extendTextForTimedMode s ws).sessionText
        = s.sessionText ++ (' ' :: joinSpace ws) ∧
      (extendTextForTimedMode s ws).charCorrectness
        = s.charCorrectness ++ List.replicate (' ' :: joinSpace ws).length false ∧
      (extendTextForTimedMode s ws).charTyped
        = s.charTyped ++ List.replicate (' ' :: joinSpace ws).length false ∧
      (extendTextForTimedMode s ws).position = s.position) := by
  refine ⟨handleKeystroke_structOK, handleBackspace_structOK, ?_⟩
  intro s ws h
  obtain ⟨hc, ht, hp⟩ := h
  have hcor : goCopy s.charCorrectness
      (s.charCorrectness.length + (' ' :: joinSpace ws).length)
        = s.charCorrectness ++ List.replicate (' ' :: joinSpace ws).length false :=
    goCopy_of_le _ _
  have htyp : goCopy s.charTyped
      (s.charCorrectness.length + (' ' :: joinSpace ws).length)
        = s.charTyped ++ List.replicate (' ' :: joinSpace ws).length false := by
    rw [hc, ← ht]
    exact goCopy_of_le _ _
  unfold extendTextForTimedMode
  dsimp only
  rw [hcor, htyp]
  refine ⟨⟨?_, ?_, ?_⟩, rfl, rfl, rfl, rfl⟩
  · simp [hc]
  · simp [ht, hc]
  · simp
    omega

/-- Witness for C9 at concrete inputs: a keystroke, a backspace and a
one-word extension on the mid-text snapshot. -/
theorem structural_invariants_witness :
    structOK (handleKeystroke midState 'b') ∧
    structOK (handleBackspace midState) ∧
    (extendTextForTimedMode midState [['c']]).charCorrectness
      = [true, false, false, false] := by
  have h : structOK midState := ⟨by decide, by decide, by decide⟩
  refine ⟨structural_invariants.1 midState 'b' h,
          structural_invariants.2.1 midState h, ?_⟩
  rw [(structural_invariants.2.2 midState [['c']] h).2.2.1]
  decide

/-!  Counting typed-error slots. -/

theorem countTypedErr_succ (t c : List Bool) (n : Nat) :
    countTypedErr t c (n + 1)
      = countTypedErr t c n
          + (if (!(c.getD n false) && t.getD n false) = true then 1 else 0) := by
  unfold countTypedErr
  rw [List.range_succ, List.countP_append]
  simp [List.countP_cons]

theorem countTypedErr_congr (t c t' c' : List Bool) (n : Nat)
    (ht : ∀ i, i < n → t.getD i false = t'.getD i false)
    (hc : ∀ i, i < n → c.getD i false = c'.getD i false) :
    countTypedErr t c n = countTypedErr t' c' n := by
  unfold countTypedErr
  apply List.countP_congr
  intro i hi
  rw [ht i (List.mem_range.1 hi), hc i (List.mem_range.1 hi)]

theorem countTypedErr_le (t c : List Bool) (n : Nat) :
    countTypedErr t c n ≤ n := by
  unfold countTypedErr
  have h := List.countP_le_length
    (p := fun i => !(c.getD i false) && t.getD i false) (l := List.range n)
  simpa using h

theorem countTypedErr_ext (t c : List Bool) (n m : Nat) (h : n ≤ m)
    (ht : ∀ j, n ≤ j → j < m → t.getD j false = false) :
    countTypedErr t c m = countTypedErr t c n := by
  induction m with
  | zero =>
      obtain rfl : n = 0 := by omega
      rfl
  | succ m ih =>
      rcases Nat.eq_or_lt_of_le h with he | hl
      · rw [he]
      · rw [countTypedErr_succ, ih (by omega) (fun j a b => ht j a (by omega)),
            ht m (by omega) (by omega)]
        simp

/-!  Preservation of the session-loop invariant by each transition. -/

theorem counterInv_skipToNextWord (s : TypingState) (h : counterInv s) :
    counterInv (skipToNextWord s) := by
  obtain ⟨hso, herr, hahead, hct⟩ := h
  have hstruct := skipToNextWord_structOK s hso
  unfold skipToNextWord at hstruct ⊢
  cases hfind : findSpaceFrom s.sessionText s.position with
  | some i =>
      simp only [hfind] at hstruct ⊢
      obtain ⟨g1, g2, g3, g4⟩ := findSpaceFrom_some _ _ _ hfind
      obtain ⟨m1, m2, m3, m4, m5, m6, m7, m8, m9, m10, m11⟩ :=
        markRangeAux_spec (i - s.position) s s.position
      unfold markRangeIncorrect at hstruct ⊢
      refine ⟨hstruct, ?_, ?_, ?_⟩
      · dsimp only
        rw [m3, m7]
        rw [countTypedErr_ext _ _ s.position (i + 1) (by omega)
              (fun j hj1 _ => hahead j hj1),
            countTypedErr_congr _ _ s.charTyped s.charCorrectness s.position
              (fun _ _ => rfl) (fun k hk => m10 k hk)]
        exact herr
      · intro j hj
        dsimp only at hj ⊢
        rw [m7]
        exact hahead j (by omega)
      · dsimp only
        rw [m4, m5]
        exact hct
  | none =>
      simp only [hfind] at hstruct ⊢
      obtain ⟨m1, m2, m3, m4, m5, m6, m7, m8, m9, m10, m11⟩ :=
        markRangeAux_spec (s.sessionText.length - s.position) s s.position
      unfold markRangeIncorrect at hstruct ⊢
      obtain ⟨hc, htl, hp⟩ := hso
      refine ⟨hstruct, ?_, ?_, ?_⟩
      · dsimp only
        rw [m3, m7]
        rw [countTypedErr_ext _ _ s.position s.sessionText.length (by omega)
              (fun j hj1 _ => hahead j hj1),
            countTypedErr_congr _ _ s.charTyped s.charCorrectness s.position
              (fun _ _ => rfl) (fun k hk => m10 k hk)]
        exact herr
      · intro j hj
        dsimp only at hj ⊢
        rw [m7]
        exact hahead j (by omega)
      · dsimp only
        rw [m4, m5]
        exact hct

theorem counterInv_handleSpace (s : TypingState) (h : counterInv s) :
    counterInv (handleSpace s) := by
  obtain ⟨⟨hc, htl, hp⟩, herr, hahead, hct⟩ := h
  unfold handleSpace
  split_ifs with h1 h2
  · obtain ⟨hlt, hsp⟩ := h1
    refine ⟨⟨by simp [hc], by simp [htl], by dsimp only; omega⟩, ?_, ?_, by dsimp only; omega⟩
    · dsimp only
      have hcg : (s.charCorrectness.set s.position true).getD s.position false = true :=
        getD_set_self _ _ _ _ (by omega)
      rw [countTypedErr_succ, hcg,
          countTypedErr_congr _ _ s.charTyped s.charCorrectness s.position
            (fun k hk => getD_set_ne _ _ _ (by omega))
            (fun k hk => getD_set_ne _ _ _ (by omega)),
          if_neg (by simp)]
      omega
    · intro j hj
      dsimp only at hj ⊢
      rw [getD_set_ne _ _ _ (by omega)]
      exact hahead j (by omega)
  · exact counterInv_skipToNextWord s ⟨⟨hc, htl, hp⟩, herr, hahead, hct⟩
  · exact ⟨⟨hc, htl, hp⟩, herr, hahead, hct⟩

theorem counterInv_handleKeystroke (s : TypingState) (key : Char)
    (h : counterInv s) : counterInv (handleKeystroke s key) := by
  obtain ⟨⟨hc, htl, hp⟩, herr, hahead, hct⟩ := h
  unfold handleKeystroke
  dsimp only
  split_ifs with h1 h2 h3
  · exact counterInv_handleSpace _ ⟨⟨hc, htl, hp⟩, herr, hahead, by dsimp only; omega⟩
  · exact ⟨⟨hc, htl, hp⟩, herr, hahead, by dsimp only; omega⟩
  · have hlt : s.position < s.sessionText.length := by omega
    refine ⟨⟨by simp [hc], by simp [htl], by dsimp only; omega⟩, ?_, ?_, by dsimp only; omega⟩
    · dsimp only
      have hcg : (s.charCorrectness.set s.position true).getD s.position false = true :=
        getD_set_self _ _ _ _ (by omega)
      rw [countTypedErr_succ, hcg,
          countTypedErr_congr _ _ s.charTyped s.charCorrectness s.position
            (fun k hk => getD_set_ne _ _ _ (by omega))
            (fun k hk => getD_set_ne _ _ _ (by omega)),
          if_neg (by simp)]
      omega
    · intro j hj
      dsimp only at hj ⊢
      rw [getD_set_ne _ _ _ (by omega)]
      exact hahead j (by omega)
  · have hlt : s.position < s.sessionText.length := by omega
    refine ⟨⟨by simp [hc], by simp [htl], by dsimp only; omega⟩, ?_, ?_, by dsimp only; omega⟩
    · dsimp only
      have hcg : (s.charCorrectness.set s.position false).getD s.position false = false :=
        getD_set_false _ _ _ rfl
      have htg : (s.charTyped.set s.position true).getD s.position false = true :=
        getD_set_self _ _ _ _ (by omega)
      rw [countTypedErr_succ, hcg, htg,
          countTypedErr_congr _ _ s.charTyped s.charCorrectness s.position
            (fun k hk => getD_set_ne _ _ _ (by omega))
            (fun k hk => getD_set_ne _ _ _ (by omega)),
          if_pos (by decide)]
      omega
    · intro j hj
      dsimp only at hj ⊢
      rw [getD_set_ne _ _ _ (by omega)]
      exact hahead j (by omega)

theorem counterInv_handleBackspace (s : TypingState) (h : counterInv s) :
    counterInv (handleBackspace s) := by
  obtain ⟨⟨hc, htl, hp⟩, herr, hahead, hct⟩ := h
  have hpos : s.position = 0 ∨ s.position = (s.position - 1) + 1 := by omega
  unfold handleBackspace
  dsimp only
  split_ifs with h1 h2
  · exact ⟨⟨hc, htl, hp⟩, herr, hahead, hct⟩
  · obtain hpos := hpos.resolve_left h1
    refine ⟨⟨by simp [hc], by simp [htl], by dsimp only; omega⟩, ?_, ?_, by dsimp only; omega⟩
    · dsimp only
      rw [countTypedErr_congr _ _ s.charTyped s.charCorrectness (s.position - 1)
            (fun k hk => getD_set_ne _ _ _ (by omega))
            (fun k hk => getD_set_ne _ _ _ (by omega))]
      rw [hpos, countTypedErr_succ, if_pos h2] at herr
      omega
    · intro j hj
      dsimp only at hj ⊢
      rcases Nat.eq_or_lt_of_le hj with he | hl
      · exact getD_set_false _ _ _ he
      · rw [getD_set_ne _ _ _ (by omega)]
        exact hahead j (by omega)
  · obtain hpos := hpos.resolve_left h1
    refine ⟨⟨by simp [hc], by simp [htl], by dsimp only; omega⟩, ?_, ?_, by dsimp only; omega⟩
    · dsimp only
      rw [countTypedErr_congr _ _ s.charTyped s.charCorrectness (s.position - 1)
            (fun k hk => getD_set_ne _ _ _ (by omega))
            (fun k hk => getD_set_ne _ _ _ (by omega))]
      rw [hpos, countTypedErr_succ, if_neg h2] at herr
      omega
    · intro j hj
      dsimp only at hj ⊢
      rcases Nat.eq_or_lt_of_le hj with he | hl
      · exact getD_set_false _ _ _ he
      · rw [getD_set_ne _ _ _ (by omega)]
        exact hahead j (by omega)

theorem counterInv_step (s : TypingState) (e : Event) (h : counterInv s) :
    counterInv (step s e) := by
  cases e with
  | byte b =>
      unfold step
      dsimp only
      split_ifs with h1 h2 h3
      · exact h
      · exact h
      · exact counterInv_handleBackspace s h
      · exact counterInv_handleKeystroke s b h
  | tick => exact h
  | timeUp => exact h
  | interrupt => exact h

theorem counterInv_newTypingState (target : List Char) :
    counterInv (newTypingState target) := by
  refine ⟨⟨by simp [newTypingState], by simp [newTypingState], by simp [newTypingState]⟩,
          by simp [newTypingState, countTypedErr], ?_, by simp [newTypingState]⟩
  intro j _
  exact getD_replicate_false _ _

theorem counterInv_runEvents (target : List Char) (events : List Event) :
    counterInv (runEvents target events) := by
  unfold runEvents
  have h : ∀ (es : List Event) (s : TypingState),
      counterInv s → counterInv (es.foldl step s) := by
    intro es
    induction es with
    | nil => intro s hs; exact hs
    | cons e es ih => intro s hs; exact ih _ (counterInv_step s e hs)
  exact h events _ (counterInv_newTypingState target)

/-- Counterexample for C1: on the target `"ab "` the events
`'a'`, space (a mid-word skip over `b` and the following space), then three
backspaces leave `chars_typed = -1` while `errors = 0`, so
`0 ≤ errors ≤ chars_typed` fails and `chars_typed` is negative — exactly
by backspacing through slots filled by a skip rather than typed. -/
theorem counters_cex :
    (runEvents ['a', 'b', ' ']
        [.byte 'a', .byte ' ', .byte (Char.ofNat 127), .byte (Char.ofNat 127),
         .byte (Char.ofNat 127)]).charsTyped = -1 ∧
    (runEvents ['a', 'b', ' ']
        [.byte 'a', .byte ' ', .byte (Char.ofNat 127), .byte (Char.ofNat 127),
         .byte (Char.ofNat 127)]).errors = 0 := by
  decide

/-- Claim C1 (amended): after every event sequence from a fresh state,
`0 ≤ errors`, `errors ≤ position` and `chars_typed ≤ raw_keystrokes` hold;
the claimed chain `errors ≤ chars_typed` (and with it the non-negativity
of `chars_typed`) does not: backspacing through slots filled by a
skip-to-next-word decrements `chars_typed` without a matching typed slot,
as the counterexample shows. -/
theorem counters_invariant (target : List Char) (events : List Event) :
    0 ≤ (runEvents target events).errors ∧
    (runEvents target events).errors ≤ ((runEvents target events).position : Int) ∧
    (runEvents target events).charsTyped
      ≤ ((runEvents target events).rawKeystrokes : Int) := by
  obtain ⟨_, herr, _, hct⟩ := counterInv_runEvents target events
  have hle := countTypedErr_le (runEvents target events).charTyped
    (runEvents target events).charCorrectness (runEvents target events).position
  refine ⟨by omega, by omega, hct⟩

/-- Claim C4: a keystroke that produces a typed error at the cursor slot
(typed set, correctness cleared), followed immediately by backspace,
returns `errors` and `charsTyped` to their previous values while
`rawErrors` and `rawKeystrokes` keep their increments; the backspace is
counted and the slot ends cleared. -/
theorem typed_error_backspace (s : TypingState) (x : Char)
    (hx : x ≠ ' ')
    (hpos : s.position < s.sessionText.length)
    (hmiss : x ≠ s.sessionText.getD s.position ' ')
    (hlc : s.position < s.charCorrectness.length)
    (hlt : s.position < s.charTyped.length) :
    (handleKeystroke s x).charTyped.getD s.position false = true ∧
    (handleKeystroke s x).charCorrectness.getD s.position false = false ∧
    handleBackspace (handleKeystroke s x)
      = { s with
          rawErrors := s.rawErrors + 1
          rawKeystrokes := s.rawKeystrokes + 1
          backspaceCount := s.backspaceCount + 1
          charCorrectness := s.charCorrectness.set s.position false
          charTyped := s.charTyped.set s.position false } := by
  have hks : handleKeystroke s x
      = { s with
          charsTyped := s.charsTyped + 1
          rawKeystrokes := s.rawKeystrokes + 1
          charTyped := s.charTyped.set s.position true
          charCorrectness := s.charCorrectness.set s.position false
          errors := s.errors + 1
          rawErrors := s.rawErrors + 1
          position := s.position + 1 } := by
    have hmiss' : ¬x = s.sessionText[s.position]?.getD ' ' := by
      simpa [List.getD_eq_getElem?_getD] using hmiss
    unfold handleKeystroke
    simp [hx, Nat.not_le.2 hpos, hmiss']
  rw [hks]
  refine ⟨getD_set_self _ _ _ _ (by simpa using hlt),
          getD_set_false _ _ _ rfl, ?_⟩
  unfold handleBackspace
  simp only [Nat.succ_ne_zero, if_false, Nat.add_sub_cancel]
  rw [getD_set_false _ _ _ rfl, getD_set_self _ _ _ _ (by simpa using hlt)]
  simp [List.set_set]

/-- Witness for C4 at the concrete mid-text snapshot: typing `x` against
target `b` and backspacing restores the corrected counters. -/
theorem typed_error_backspace_witness :
    handleBackspace (handleKeystroke midState 'x')
      = { midState with rawErrors := 1, rawKeystrokes := 2, backspaceCount := 1 } := by
  rw [(typed_error_backspace midState 'x' (by decide) (by decide) (by decide)
        (by decide) (by decide)).2.2]
  decide

/-!  Index runs emitted by the wrap loop. -/

theorem mem_idxRun (x : Nat) : ∀ (ti n : Nat), x ∈ idxRun ti n ↔ ti ≤ x ∧ x < ti + n := by
  intro ti n
  induction n generalizing ti with
  | zero => simp [idxRun]
  | succ n ih =>
      rw [idxRun]
      simp only [List.mem_cons, ih (ti + 1)]
      omega

theorem pairwise_idxRun : ∀ (ti n : Nat), List.Pairwise (· < ·) (idxRun ti n) := by
  intro ti n
  induction n generalizing ti with
  | zero => simp [idxRun]
  | succ n ih =>
      rw [idxRun]
      refine List.Pairwise.cons ?_ (ih (ti + 1))
      intro x hx
      have := (mem_idxRun x (ti + 1) n).1 hx
      omega

theorem length_idxRun : ∀ (ti n : Nat), (idxRun ti n).length = n := by
  intro ti n
  induction n generalizing ti with
  | zero => rfl
  | succ n ih => simp [idxRun, ih]

/-!  The tokens of `splitIntoWords` concatenate back to the text. -/

theorem splitWordsAux_flatten : ∀ (text cur : List Char),
    (splitWordsAux cur text).flatten = cur ++ text := by
  intro text
  induction text with
  | nil =>
      intro cur
      by_cases h : cur = []
      · simp [splitWordsAux, h]
      · simp [splitWordsAux, h]
  | cons c rest ih =>
      intro cur
      unfold splitWordsAux
      by_cases hsp : c = ' '
      · by_cases h : cur = []
        · simp [hsp, h, ih]
        · simp [hsp, h, ih]
      · simp [hsp, ih (cur ++ [c])]

theorem splitIntoWords_flatten (text : List Char) :
    (splitIntoWords text).flatten = text := by
  simpa using splitWordsAux_flatten text []

/-!  Characterization of the inner character loop of the wrapper. -/

theorem addWordChars_spec : ∀ (word : List Char) (line : wrappedLine) (cpos ti : Nat),
    (addWordChars line word cpos ti).1.content = line.content ++ word ∧
    (addWordChars line word cpos ti).1.charIndices
      = line.charIndices ++ idxRun ti word.length ∧
    (addWordChars line word cpos ti).2 = ti + word.length ∧
    ((addWordChars line word cpos ti).1.hasCursor = true ↔
      (line.hasCursor = true ∨ cpos ∈ idxRun ti word.length)) := by
  intro word
  induction word with
  | nil =>
      intro line cpos ti
      refine ⟨by simp [addWordChars], by simp [addWordChars, idxRun], by simp [addWordChars], ?_⟩
      simp [addWordChars, idxRun]
  | cons c cs ih =>
      intro line cpos ti
      unfold addWordChars
      by_cases hti : ti = cpos
      · rw [if_pos hti]
        obtain ⟨i1, i2, i3, i4⟩ := ih
          { line with
            hasCursor := true
            cursorPosition := line.content.length
            content := line.content ++ [c]
            charIndices := line.charIndices ++ [ti] } cpos (ti + 1)
        refine ⟨by rw [i1]; simp, ?_, by rw [i3, List.length_cons]; omega, ?_⟩
        · rw [i2, List.length_cons, idxRun]
          simp
        · rw [i4]
          simp only [mem_idxRun, List.length_cons]
          constructor
          · intro _
            exact Or.inr (by omega)
          · intro _
            exact Or.inl trivial
      · rw [if_neg hti]
        obtain ⟨i1, i2, i3, i4⟩ := ih
          { line with
            content := line.content ++ [c]
            charIndices := line.charIndices ++ [ti] } cpos (ti + 1)
        refine ⟨by rw [i1]; simp, ?_, by rw [i3, List.length_cons]; omega, ?_⟩
        · rw [i2, List.length_cons, idxRun]
          simp
        · rw [i4]
          simp only [mem_idxRun, List.length_cons]
          constructor
          · rintro (h | h)
            · exact Or.inl h
            · exact Or.inr (by omega)
          · rintro (h | h)
            · exact Or.inl h
            · refine Or.inr ?_
              rcases Nat.eq_or_lt_of_le h.1 with he | hl
              · exact absurd he hti
              · omega

/-!  Small facts about indicators, `allIndices` and `getD`. -/

theorem allIndices_nil : allIndices [] = [] := rfl

theorem allIndices_cons (l : wrappedLine) (ls : List wrappedLine) :
    allIndices (l :: ls) = l.charIndices ++ allIndices ls := by
  simp [allIndices]

theorem mem_allIndices (x : Nat) (lines : List wrappedLine) :
    x ∈ allIndices lines ↔ ∃ l ∈ lines, x ∈ l.charIndices := by
  simp [allIndices]

theorem getD_cons_succ {α : Type} (a : α) (l : List α) (k : Nat) (d : α) :
    (a :: l).getD (k + 1) d = l.getD k d := by
  simp [List.getD_eq_getElem?_getD]

theorem getD_append_right {α : Type} (l l' : List α) (k : Nat) (d : α)
    (h : l.length ≤ k) : (l ++ l').getD k d = l'.getD (k - l.length) d := by
  simp [List.getD_eq_getElem?_getD, List.getElem?_append, Nat.not_lt.2 h]

theorem indIn_mono (lo lo' x hi hi' : Nat) (h1 : lo' ≤ lo) (h2 : hi ≤ hi') :
    indIn lo x hi ≤ indIn lo' x hi' := by
  unfold indIn
  split_ifs <;> omega

theorem indIn_split (a b c x : Nat) (h1 : a ≤ b) (h2 : b ≤ c) :
    indIn a x b + indIn b x c = indIn a x c := by
  unfold indIn
  split_ifs <;> omega

theorem indIn_pos (lo x hi : Nat) (h1 : lo ≤ x) (h2 : x < hi) :
    indIn lo x hi = 1 := by
  unfold indIn
  rw [if_pos ⟨h1, h2⟩]

theorem cInd_emptyLine : cInd emptyLine = 0 := rfl

theorem countP_hasCursor_cons (l : wrappedLine) (ls : List wrappedLine) :
    List.countP (fun x => x.hasCursor) (l :: ls)
      = cInd l + List.countP (fun x => x.hasCursor) ls := by
  cases h : l.hasCursor <;> simp [List.countP_cons, cInd, h] <;> omega

theorem cInd_addWordChars_le (line : wrappedLine) (word : List Char) (cpos ti : Nat) :
    cInd (addWordChars line word cpos ti).1
      ≤ cInd line + indIn ti cpos (ti + word.length) := by
  obtain ⟨_, _, _, i4⟩ := addWordChars_spec word line cpos ti
  cases h1 : (addWordChars line word cpos ti).1.hasCursor with
  | false => simp [cInd, h1]
  | true =>
      have hres : cInd (addWordChars line word cpos ti).1 = 1 := by simp [cInd, h1]
      rcases i4.1 h1 with hB | hM
      · have hl : cInd line = 1 := by simp [cInd, hB]
        omega
      · have hI : indIn ti cpos (ti + word.length) = 1 := by
          have hm := (mem_idxRun cpos ti word.length).1 hM
          exact indIn_pos _ _ _ hm.1 hm.2
        omega

/-- The wrap loop maintains `wrapInv`: every execution starting from a
line under construction whose indices are strictly increasing and below
the running source index produces strictly increasing, bounded, non-space
complete output indices, cursor-sound lines, and at most one new
cursor. -/
theorem wrapLoop_spec (cpos w : Nat) : ∀ (words : List (List Char)) (cur : wrappedLine) (ti : Nat),
    (∀ x ∈ cur.charIndices, x < ti) →
    List.Pairwise (· < ·) cur.charIndices →
    (cur.hasCursor = true → cpos ∈ cur.charIndices) →
    cur.content.length = cur.charIndices.length →
    wrapInv cpos ti ((words.map List.length).sum) cur words.flatten
      (wrapLoop cpos w words cur ti) := by
  intro words
  induction words with
  | nil =>
      intro cur ti hb hpw hcm hlen
      unfold wrapLoop
      refine ⟨by simp, ?_, ?_, ?_, ?_, by simp [allIndices_nil], hcm, ?_, hlen⟩
      · intro x hx
        rw [allIndices_nil, List.nil_append]
        exact hx
      · rw [allIndices_nil, List.nil_append]
        exact hpw
      · intro x hx
        rw [allIndices_nil, List.nil_append] at hx
        exact ⟨by simpa using hb x hx, Or.inl hx⟩
      · intro k hk
        simp at hk
      · simp only [List.countP_nil]
        omega
  | cons word rest ih =>
      intro cur ti hb hpw hcm hlen
      unfold wrapLoop
      dsimp only
      split_ifs with hover habs
      · subst habs
        simp only [List.map_cons, List.sum_cons, List.flatten_cons,
          List.singleton_append, List.length_cons, List.length_nil, Nat.zero_add]
        obtain ⟨j1, j2, j3, j4, j5, j6, j7, j8, j9⟩ :=
          ih emptyLine (ti + 1)
            (by intro x hx; simp [emptyLine] at hx)
            (by simp [emptyLine])
            (by intro h; simp [emptyLine] at h)
            rfl
        refine ⟨?_, ?_, ?_, ?_, ?_, ?_, ?_, ?_, ?_⟩
        · dsimp only
          omega
        · intro x hx
          dsimp only
          rw [allIndices_cons, List.append_assoc]
          exact List.mem_append_left _ hx
        · dsimp only
          rw [allIndices_cons, List.append_assoc]
          refine List.pairwise_append.2 ⟨hpw, j3, ?_⟩
          intro x hx y hy
          have h4 := j4 y hy
          have hxb := hb x hx
          rcases h4.2 with hmem | hge
          · simp [emptyLine] at hmem
          · omega
        · intro x hx
          dsimp only at hx ⊢
          rw [allIndices_cons, List.append_assoc] at hx
          rcases List.mem_append.1 hx with h | h
          · exact ⟨by have := hb x h; omega, Or.inl h⟩
          · have h4 := j4 x h
            rcases h4.2 with hmem | hge
            · simp [emptyLine] at hmem
            · exact ⟨by omega, Or.inr (by omega)⟩
        · intro k hk hchar
          rcases k with _ | j
          · rw [List.getD_cons_zero] at hchar
            exact absurd rfl hchar
          · rw [getD_cons_succ] at hchar
            dsimp only
            rw [allIndices_cons, List.append_assoc]
            have he : ti + (j + 1) = ti + 1 + j := by omega
            rw [he]
            exact List.mem_append_right _ (j5 j (by omega) hchar)
        · intro l hl
          dsimp only at hl
          rcases List.mem_cons.1 hl with rfl | hl2
          · exact hcm
          · exact j6 l hl2
        · exact j7
        · dsimp only
          rw [countP_hasCursor_cons]
          have hmono : indIn (ti + 1) cpos (ti + 1 + (rest.map List.length).sum)
              ≤ indIn ti cpos (ti + (1 + (rest.map List.length).sum)) :=
            indIn_mono _ _ _ _ _ (by omega) (by omega)
          have hce : cInd emptyLine = 0 := rfl
          omega
        · exact j9
      · simp only [List.map_cons, List.sum_cons, List.flatten_cons]
        obtain ⟨a1, a2, a3, a4⟩ := addWordChars_spec word emptyLine cpos ti
        rw [show emptyLine.content = [] from rfl, List.nil_append] at a1
        rw [show emptyLine.charIndices = [] from rfl, List.nil_append] at a2
        rw [show emptyLine.hasCursor = false from rfl] at a4
        rw [a3]
        obtain ⟨j1, j2, j3, j4, j5, j6, j7, j8, j9⟩ :=
          ih (addWordChars emptyLine word cpos ti).1 (ti + word.length)
            (by intro x hx
                rw [a2] at hx
                have := (mem_idxRun x ti word.length).1 hx
                omega)
            (by rw [a2]; exact pairwise_idxRun ti word.length)
            (by intro h
                rcases a4.1 h with hB | hM
                · exact absurd hB (by simp)
                · rw [a2]; exact hM)
            (by rw [a1, a2, length_idxRun])
        refine ⟨?_, ?_, ?_, ?_, ?_, ?_, ?_, ?_, ?_⟩
        · dsimp only
          omega
        · intro x hx
          dsimp only
          rw [allIndices_cons, List.append_assoc]
          exact List.mem_append_left _ hx
        · dsimp only
          rw [allIndices_cons, List.append_assoc]
          refine List.pairwise_append.2 ⟨hpw, j3, ?_⟩
          intro x hx y hy
          have h4 := j4 y hy
          have hxb := hb x hx
          rcases h4.2 with hmem | hge
          · rw [a2] at hmem
            have := (mem_idxRun y ti word.length).1 hmem
            omega
          · omega
        · intro x hx
          dsimp only at hx ⊢
          rw [allIndices_cons, List.append_assoc] at hx
          rcases List.mem_append.1 hx with h | h
          · exact ⟨by have := hb x h; omega, Or.inl h⟩
          · have h4 := j4 x h
            rcases h4.2 with hmem | hge
            · rw [a2] at hmem
              have := (mem_idxRun x ti word.length).1 hmem
              exact ⟨by omega, Or.inr (by omega)⟩
            · exact ⟨by omega, Or.inr (by omega)⟩
        · intro k hk hchar
          dsimp only
          rw [allIndices_cons, List.append_assoc]
          rcases Nat.lt_or_ge k word.length with hk2 | hk2
          · have hmem : ti + k ∈ (addWordChars emptyLine word cpos ti).1.charIndices := by
              rw [a2]
              exact (mem_idxRun _ _ _).2 ⟨by omega, by omega⟩
            exact List.mem_append_right _ (j2 _ hmem)
          · rw [getD_append_right _ _ _ _ hk2] at hchar
            have he : ti + k = ti + word.length + (k - word.length) := by omega
            rw [he]
            exact List.mem_append_right _ (j5 (k - word.length) (by omega) hchar)
        · intro l hl
          dsimp only at hl
          rcases List.mem_cons.1 hl with rfl | hl2
          · exact hcm
          · exact j6 l hl2
        · exact j7
        · dsimp only
          rw [countP_hasCursor_cons]
          have hpc := cInd_addWordChars_le emptyLine word cpos ti
          have hce : cInd emptyLine = 0 := rfl
          have hsplit := indIn_split ti (ti + word.length)
            (ti + word.length + (rest.map List.length).sum) cpos (by omega) (by omega)
          have hee : indIn ti cpos (ti + word.length + (rest.map List.length).sum)
              = indIn ti cpos (ti + (word.length + (rest.map List.length).sum)) := by
            rw [Nat.add_assoc]
          omega
        · exact j9
      · simp only [List.map_cons, List.sum_cons, List.flatten_cons]
        obtain ⟨a1, a2, a3, a4⟩ := addWordChars_spec word cur cpos ti
        rw [a3]
        obtain ⟨j1, j2, j3, j4, j5, j6, j7, j8, j9⟩ :=
          ih (addWordChars cur word cpos ti).1 (ti + word.length)
            (by intro x hx
                rw [a2] at hx
                rcases List.mem_append.1 hx with h | h
                · have := hb x h
                  omega
                · have := (mem_idxRun x ti word.length).1 h
                  omega)
            (by rw [a2]
                refine List.pairwise_append.2 ⟨hpw, pairwise_idxRun ti word.length, ?_⟩
                intro x hx y hy
                have h1 := hb x hx
                have h2 := (mem_idxRun y ti word.length).1 hy
                omega)
            (by intro h
                rw [a2]
                rcases a4.1 h with hB | hM
                · exact List.mem_append_left _ (hcm hB)
                · exact List.mem_append_right _ hM)
            (by rw [a1, a2]
                simp [hlen, length_idxRun])
        refine ⟨?_, ?_, ?_, ?_, ?_, ?_, ?_, ?_, ?_⟩
        · omega
        · intro x hx
          refine j2 x ?_
          rw [a2]
          exact List.mem_append_left _ hx
        · exact j3
        · intro x hx
          have h4 := j4 x hx
          refine ⟨by omega, ?_⟩
          rcases h4.2 with hmem | hge
          · rw [a2] at hmem
            rcases List.mem_append.1 hmem with h | h
            · exact Or.inl h
            · have := (mem_idxRun x ti word.length).1 h
              exact Or.inr (by omega)
          · exact Or.inr (by omega)
        · intro k hk hchar
          rcases Nat.lt_or_ge k word.length with hk2 | hk2
          · refine j2 _ ?_
            rw [a2]
            exact List.mem_append_right _ ((mem_idxRun _ _ _).2 ⟨by omega, by omega⟩)
          · rw [getD_append_right _ _ _ _ hk2] at hchar
            have he : ti + k = ti + word.length + (k - word.length) := by omega
            rw [he]
            exact j5 (k - word.length) (by omega) hchar
        · exact j6
        · exact j7
        · have hpc := cInd_addWordChars_le cur word cpos ti
          have hsplit := indIn_split ti (ti + word.length)
            (ti + word.length + (rest.map List.length).sum) cpos (by omega) (by omega)
          have hee : indIn ti cpos (ti + word.length + (rest.map List.length).sum)
              = indIn ti cpos (ti + (word.length + (rest.map List.length).sum)) := by
            rw [Nat.add_assoc]
          omega
        · exact j9

theorem allIndices_append_single (ls : List wrappedLine) (l : wrappedLine) :
    allIndices (ls ++ [l]) = allIndices ls ++ l.charIndices := by
  simp [allIndices]

theorem cInd_eq_zero (l : wrappedLine) : cInd l = 0 ↔ l.hasCursor = false := by
  unfold cInd
  cases h : l.hasCursor <;> simp [h]

theorem findCursorLineAux_zero (ls : List wrappedLine)
    (h : ∀ l ∈ ls, l.hasCursor = false) : ∀ i, findCursorLineAux ls i = 0 := by
  induction ls with
  | nil => intro i; rfl
  | cons l ls ih =>
      intro i
      rw [findCursorLineAux, h l (List.mem_cons_self l ls), if_neg (by simp)]
      exact ih (fun x hx => h x (List.mem_cons_of_mem l hx)) (i + 1)

/-- The indices shown by `wrapTextToLines` are exactly the loop's finished
lines followed by the line under construction; the cursor postlude and the
empty-line drop change no index. -/
theorem wrapTextToLines_allIndices (text : List Char) (cpos w : Nat) :
    allIndices (wrapTextToLines text cpos w)
      = allIndices (wrapLoop cpos w (splitIntoWords text) emptyLine 0).1
          ++ (wrapLoop cpos w (splitIntoWords text) emptyLine 0).2.1.charIndices := by
  obtain ⟨j1, j2, j3, j4, j5, j6, j7, j8, j9⟩ :=
    wrapLoop_spec cpos w (splitIntoWords text) emptyLine 0
      (by intro x hx; simp [emptyLine] at hx)
      (by simp [emptyLine])
      (by intro h; simp [emptyLine] at h)
      rfl
  unfold wrapTextToLines
  dsimp only
  split_ifs with h1 h2 h3
  · exact allIndices_append_single _ _
  · -- final line dropped although the cursor was attached: impossible,
    -- the cursor branch sets hasCursor
    exact absurd (Or.inr rfl) h2
  · exact allIndices_append_single _ _
  · -- final line dropped: its content is empty, hence so are its indices
    have hlen0 : (wrapLoop cpos w (splitIntoWords text) emptyLine 0).2.1.charIndices.length = 0 := by
      rw [← j9]
      omega
    rw [List.length_eq_zero.1 hlen0, List.append_nil]

/-- Counterexample for C5: wrapping `"aa b"` at width 2 absorbs the space
at index 2 when starting the new line, so index 2 appears in no line's
`char_indices` although `2 < len(session_text)`. -/
theorem wrap_totality_cex :
    (2 : Nat) < (['a', 'a', ' ', 'b'] : List Char).length ∧
    (2 : Nat) ∉ allIndices (wrapTextToLines ['a', 'a', ' ', 'b'] 0 2) := by
  decide

/-- Claim C5 (amended): across all wrapped lines the emitted source
indices are strictly increasing — hence each appears at most once, in
order — and lie below `len(session_text)`, and every index holding a
non-space character appears; but an index of a space absorbed at the
start of a new wrapped line appears in no line, as the counterexample
shows. -/
theorem wrap_indices_spec (text : List Char) (cpos w : Nat) :
    List.Pairwise (· < ·) (allIndices (wrapTextToLines text cpos w)) ∧
    (∀ i ∈ allIndices (wrapTextToLines text cpos w), i < text.length) ∧
    (∀ i, i < text.length → text.getD i ' ' ≠ ' ' →
      i ∈ allIndices (wrapTextToLines text cpos w)) := by
  obtain ⟨j1, j2, j3, j4, j5, j6, j7, j8, j9⟩ :=
    wrapLoop_spec cpos w (splitIntoWords text) emptyLine 0
      (by intro x hx; simp [emptyLine] at hx)
      (by simp [emptyLine])
      (by intro h; simp [emptyLine] at h)
      rfl
  have hA := wrapTextToLines_allIndices text cpos w
  have hS : ((splitIntoWords text).map List.length).sum = text.length := by
    rw [show ((splitIntoWords text).map List.length).sum
          = (splitIntoWords text).flatten.length by simp [List.length_flatten],
        splitIntoWords_flatten]
  refine ⟨by rw [hA]; exact j3, ?_, ?_⟩
  · intro i hi
    rw [hA] at hi
    have := (j4 i hi).1
    omega
  · intro i hi hsp
    rw [hA]
    have hflat : (splitIntoWords text).flatten.getD i ' ' ≠ ' ' := by
      rw [splitIntoWords_flatten]
      exact hsp
    have := j5 i (by omega) hflat
    simpa using this

/-- Witness for C5 at the concrete wrap of `"aa b"`: the non-space index 1
is emitted. -/
theorem wrap_indices_spec_witness :
    (1 : Nat) ∈ allIndices (wrapTextToLines ['a', 'a', ' ', 'b'] 0 2) :=
  (wrap_indices_spec ['a', 'a', ' ', 'b'] 0 2).2.2 1 (by decide) (by decide)

/-- Claim C10: at most one wrapped line carries the cursor; when the
cursor is at or past the end of the text exactly the last line carries it;
and when the cursor index is inside the text but emitted by no line — the
absorbed-space case — no line carries the cursor and the visible window
starts at the first line. -/
theorem cursor_uniqueness (text : List Char) (cpos w : Nat) :
    List.countP (fun l => l.hasCursor) (wrapTextToLines text cpos w) ≤ 1 ∧
    (text.length ≤ cpos →
      ∃ ls l, wrapTextToLines text cpos w = ls ++ [l] ∧ l.hasCursor = true ∧
        ∀ x ∈ ls, x.hasCursor = false) ∧
    (cpos < text.length → cpos ∉ allIndices (wrapTextToLines text cpos w) →
      (∀ l ∈ wrapTextToLines text cpos w, l.hasCursor = false) ∧
      (calculateVisibleWindow (wrapTextToLines text cpos w) 3).1 = 0) := by
  obtain ⟨j1, j2, j3, j4, j5, j6, j7, j8, j9⟩ :=
    wrapLoop_spec cpos w (splitIntoWords text) emptyLine 0
      (by intro x hx; simp [emptyLine] at hx)
      (by simp [emptyLine])
      (by intro h; simp [emptyLine] at h)
      rfl
  have hA := wrapTextToLines_allIndices text cpos w
  have hS : ((splitIntoWords text).map List.length).sum = text.length := by
    rw [show ((splitIntoWords text).map List.length).sum
          = (splitIntoWords text).flatten.length by simp [List.length_flatten],
        splitIntoWords_flatten]
  have hce : cInd emptyLine = 0 := rfl
  by_cases hend : text.length ≤ cpos
  · -- the cursor sits at or past the end: the loop never saw it
    have hindz : indIn 0 cpos (0 + ((splitIntoWords text).map List.length).sum) = 0 := by
      unfold indIn
      rw [if_neg (by omega)]
    have h0 : List.countP (fun l => l.hasCursor)
        (wrapLoop cpos w (splitIntoWords text) emptyLine 0).1 = 0 := by omega
    have hfc : (wrapLoop cpos w (splitIntoWords text) emptyLine 0).2.1.hasCursor = false := by
      have : cInd (wrapLoop cpos w (splitIntoWords text) emptyLine 0).2.1 = 0 := by omega
      exact (cInd_eq_zero _).1 this
    have hallf : ∀ x ∈ (wrapLoop cpos w (splitIntoWords text) emptyLine 0).1,
        x.hasCursor = false := by
      intro x hx
      have := List.countP_eq_zero.1 h0 x hx
      simpa using this
    have hout : wrapTextToLines text cpos w
        = (wrapLoop cpos w (splitIntoWords text) emptyLine 0).1
            ++ [{ (wrapLoop cpos w (splitIntoWords text) emptyLine 0).2.1 with
                  hasCursor := true
                  cursorPosition :=
                    (wrapLoop cpos w (splitIntoWords text) emptyLine 0).2.1.content.length }] := by
      unfold wrapTextToLines
      dsimp only
      rw [if_pos hend, if_pos (Or.inr rfl)]
    refine ⟨?_, ?_, ?_⟩
    · rw [hout, List.countP_append, h0]
      simp [List.countP_cons]
    · intro _
      refine ⟨_, _, hout, rfl, hallf⟩
    · intro hlt _
      omega
  · -- the cursor is inside the text
    have hlt : cpos < text.length := by omega
    have hout : wrapTextToLines text cpos w
        = (if 0 < (wrapLoop cpos w (splitIntoWords text) emptyLine 0).2.1.content.length
              ∨ (wrapLoop cpos w (splitIntoWords text) emptyLine 0).2.1.hasCursor = true then
            (wrapLoop cpos w (splitIntoWords text) emptyLine 0).1
              ++ [(wrapLoop cpos w (splitIntoWords text) emptyLine 0).2.1]
          else (wrapLoop cpos w (splitIntoWords text) emptyLine 0).1) := by
      unfold wrapTextToLines
      dsimp only
      rw [if_neg hend]
    have hind1 : indIn 0 cpos (0 + ((splitIntoWords text).map List.length).sum) ≤ 1 := by
      unfold indIn
      split_ifs <;> omega
    refine ⟨?_, ?_, ?_⟩
    · rw [hout]
      split_ifs with hkeep
      · rw [List.countP_append]
        have : List.countP (fun l => l.hasCursor)
            [(wrapLoop cpos w (splitIntoWords text) emptyLine 0).2.1]
              = cInd (wrapLoop cpos w (splitIntoWords text) emptyLine 0).2.1 := by
          rw [countP_hasCursor_cons]
          simp [List.countP_nil]
        omega
      · have hcnil := List.countP_nil (fun l : wrappedLine => l.hasCursor)
        omega
    · intro h
      omega
    · intro _ hnot
      have hallf : ∀ l ∈ wrapTextToLines text cpos w, l.hasCursor = false := by
        intro l hl
        cases hcl : l.hasCursor with
        | false => rfl
        | true =>
            exfalso
            rw [hout] at hl
            have hob : cpos ∈ allIndices (wrapTextToLines text cpos w) := by
              rw [hA]
              rcases (by
                  split_ifs at hl with hkeep
                  · exact (List.mem_append.1 hl).imp id
                      (fun h => by simpa using h)
                  · exact Or.inl hl :
                  l ∈ (wrapLoop cpos w (splitIntoWords text) emptyLine 0).1
                    ∨ l = (wrapLoop cpos w (splitIntoWords text) emptyLine 0).2.1) with hfin | hfin
              · exact List.mem_append_left _
                  ((mem_allIndices cpos _).2 ⟨l, hfin, j6 l hfin hcl⟩)
              · subst hfin
                exact List.mem_append_right _ (j7 hcl)
            exact hnot hob
      refine ⟨hallf, ?_⟩
      have hfc : findCursorLine (wrapTextToLines text cpos w) = 0 :=
        findCursorLineAux_zero _ hallf 0
      unfold calculateVisibleWindow
      rw [hfc]
      dsimp only
      split_ifs <;> simp_all <;> omega

/-- Witness for C10 at the concrete wrap of `"aa b"` with the cursor on
the absorbed space at index 2: the window starts at the first line. -/
theorem cursor_uniqueness_witness :
    (calculateVisibleWindow (wrapTextToLines ['a', 'a', ' ', 'b'] 2 2) 3).1 = 0 :=
  ((cursor_uniqueness ['a', 'a', ' ', 'b'] 2 2).2.2 (by decide) (by decide)).2

end Zootype
